import Mathlib

/-!
Shallow embedding of the request-accelerator utility (bounded TTL cache,
cache-aside fetch, request deduplication, throttle, exponential backoff)
and proofs of its specified laws.

JavaScript `Map` objects are modelled as association lists kept in
insertion order (a `Map.set` on an existing key updates it in place, a
delete followed by a set moves the key to the back, exactly as in JS).
`Date.now()` is modelled by threading an explicit `now : Int` argument
through every operation, and promises are modelled by their outcome
`Except e a` together with explicit invocation counters.
-/

namespace FlashFrame

/-- A JavaScript value of type `T | null`: either the JS `null` or a proper value.
`get` uses `null` both as its absence result and as a possible stored datum,
so the two must share a type. -/
inductive JsVal (α : Type) where
  | jsNull : JsVal α
  | val : α → JsVal α
deriving DecidableEq, Repr

instance [DecidableEq ε] [DecidableEq α] : DecidableEq (Except ε α) := fun x y =>
  match x, y with
  | Except.ok a, Except.ok b =>
      if h : a = b then Decidable.isTrue (h ▸ rfl)
      else Decidable.isFalse fun hc => h (Except.ok.inj hc)
  | Except.ok _, Except.error _ => Decidable.isFalse fun hc => Except.noConfusion hc
  | Except.error _, Except.ok _ => Decidable.isFalse fun hc => Except.noConfusion hc
  | Except.error e, Except.error f =>
      if h : e = f then Decidable.isTrue (h ▸ rfl)
      else Decidable.isFalse fun hc => h (Except.error.inj hc)

/-- The JS comparison `x === null` (resp. `x !== null` when negated). -/
def JsVal.isNull : JsVal α → Bool
  | JsVal.jsNull => true
  | JsVal.val _ => false

/-- One stored cache record, from `interface CacheEntry<T> { data; timestamp; ttl }`. -/
structure CacheEntry (α : Type) where
  data : JsVal α
  timestamp : Int
  ttl : Int
deriving DecidableEq, Repr

/-- `Map.get`: first binding of `k` in insertion order (maps never hold duplicates,
so this is the unique binding). -/
def mapGet (m : List (String × β)) (k : String) : Option β :=
  match m with
  | [] => none
  | (k', v) :: rest => if k' = k then some v else mapGet rest k

/-- `Map.set`: update an existing binding in place (keeping its insertion
position) or append a fresh binding at the back. -/
def mapSet (m : List (String × β)) (k : String) (v : β) : List (String × β) :=
  match m with
  | [] => [(k, v)]
  | (k', v') :: rest => if k' = k then (k, v) :: rest else (k', v') :: mapSet rest k v

/-- `Map.delete`: remove the binding of `k` (removes every occurrence, which on
duplicate-free lists coincides with the JS behaviour). -/
def mapDelete (m : List (String × β)) (k : String) : List (String × β) :=
  match m with
  | [] => []
  | (k', v) :: rest => if k' = k then mapDelete rest k else (k', v) :: mapDelete rest k

/-- The `MemoryCache` class: a `Map` of entries plus the capacity bound. -/
structure MemoryCache (α : Type) where
  entries : List (String × CacheEntry α)
  maxSize : Nat
deriving DecidableEq, Repr

/-- `new MemoryCache()`: empty map, `maxSize = 100`. -/
def MemoryCache.new {α : Type} : MemoryCache α := ⟨[], 100⟩

/-- `MemoryCache.set(key, data, ttlMs)`: if `size >= maxSize`, delete the first
key in insertion order — but only when that key is truthy, i.e. not the empty
string (`if (oldestKey) this.cache.delete(oldestKey)`); then store the new
entry with `timestamp = Date.now()`. -/
def MemoryCache.set (c : MemoryCache α) (key : String) (data : JsVal α)
    (ttlMs : Int) (now : Int) : MemoryCache α :=
  let trimmed :=
    if c.maxSize ≤ c.entries.length then
      match c.entries.head? with
      | some (oldestKey, _) =>
          if oldestKey = "" then c.entries else mapDelete c.entries oldestKey
      | none => c.entries
    else c.entries
  ⟨mapSet trimmed key ⟨data, now, ttlMs⟩, c.maxSize⟩

/-- `MemoryCache.get(key)`: `null` when absent; when present but
`now - timestamp > ttl`, delete the entry and return `null`; otherwise return
the stored data. The second component is the cache after the read's side
effect. -/
def MemoryCache.get (c : MemoryCache α) (key : String) (now : Int) :
    JsVal α × MemoryCache α :=
  match mapGet c.entries key with
  | none => (JsVal.jsNull, c)
  | some entry =>
      if entry.ttl < now - entry.timestamp then
        (JsVal.jsNull, ⟨mapDelete c.entries key, c.maxSize⟩)
      else
        (entry.data, c)

/-- `MemoryCache.has(key)`: `this.get(key) !== null`, inheriting `get`'s lazy
deletion side effect. -/
def MemoryCache.has (c : MemoryCache α) (key : String) (now : Int) :
    Bool × MemoryCache α :=
  let r := c.get key now
  (!r.1.isNull, r.2)

/-- `MemoryCache.size()`: the `Map`'s population, expired entries included. -/
def MemoryCache.size (c : MemoryCache α) : Nat := c.entries.length

/-- `cachedFetch(key, fetcher, ttlMs)`: read the cache (with its side effect);
on a non-`null` hit return it; on a miss run the fetcher once — modelled by its
outcome `op` — and, on success only, store the result with the given ttl.
Returns (result, final cache, number of fetcher invocations). -/
def cachedFetch (c : MemoryCache α) (key : String) (op : Except ε (JsVal α))
    (ttlMs : Int) (now : Int) : Except ε (JsVal α) × MemoryCache α × Nat :=
  let r := c.get key now
  if !r.1.isNull then (Except.ok r.1, r.2, 0)
  else
    match op with
    | Except.ok v => (Except.ok v, r.2.set key v ttlMs now, 1)
    | Except.error e => (Except.error e, r.2, 1)

/-- State of the `pendingRequests` registry for one fixed key: the registered
promise (by identity), a fresh-promise counter, and the number of times the
underlying operation has been invoked. -/
structure DedupState where
  pending : Option Nat
  nextId : Nat
  invocations : Nat
deriving DecidableEq, Repr

/-- The registry before any call: no pending promise, no invocations. -/
def dedupInit : DedupState := ⟨none, 0, 0⟩

/-- The synchronous body of one `deduplicatedFetch` call: if a promise is
registered, return it; otherwise invoke the operation, register the new
promise (with its completion handler that will delete the registry entry) and
return it. Returns the promise identity handed to this caller. -/
def dedupIssue (s : DedupState) : DedupState × Nat :=
  match s.pending with
  | some p => (s, p)
  | none => (⟨some s.nextId, s.nextId + 1, s.invocations + 1⟩, s.nextId)

/-- `n` calls for the same key issued while no completion has run in between
(the "issued concurrently while outstanding" scenario); collects each caller's
promise identity. -/
def dedupIssueN : Nat → DedupState → DedupState × List Nat
  | 0, s => (s, [])
  | n + 1, s =>
      let r := dedupIssue s
      let r' := dedupIssueN n r.1
      (r'.1, r.2 :: r'.2)

/-- Completion of the in-flight operation: the `finally` handler deletes the
registry entry first, then the outcome (value or failure, unchanged) is
delivered to everyone awaiting the promise. -/
def dedupComplete (s : DedupState) (outcome : Except ε α) :
    DedupState × Except ε α :=
  (⟨none, s.nextId, s.invocations⟩, outcome)

/-- Closure state of `throttle(fn, delayMs)`: `lastCall` starts at `0`,
`lastResult` starts `undefined`. -/
structure ThrottleState (β : Type) where
  lastCall : Int
  lastResult : Option β
deriving DecidableEq, Repr

/-- The freshly created throttle closure. -/
def throttleInit {β : Type} : ThrottleState β := ⟨0, none⟩

/-- One invocation of the throttled wrapper at time `now`: execute `fn` iff
`now - lastCall >= delayMs`, else return the stale `lastResult`. Returns
(new state, returned value, number of executions of `fn` — 0 or 1). -/
def throttleCall (fn : α → β) (delayMs : Int) (s : ThrottleState β)
    (now : Int) (a : α) : ThrottleState β × Option β × Nat :=
  if delayMs ≤ now - s.lastCall then
    (⟨now, some (fn a)⟩, some (fn a), 1)
  else
    (s, s.lastResult, 0)

/-- A sequence of invocations of one throttled wrapper, given as
(time, argument) pairs. Returns (final state, returned values, total
executions of `fn`). -/
def throttleRun (fn : α → β) (delayMs : Int) (s : ThrottleState β) :
    List (Int × α) → ThrottleState β × List (Option β) × Nat
  | [] => (s, [], 0)
  | (t, a) :: rest =>
      let r := throttleCall fn delayMs s t a
      let r' := throttleRun fn delayMs r.1 rest
      (r'.1, r.2.1 :: r'.2.1, r.2.2 + r'.2.2)

/-- The retry loop of `withExponentialBackoff`, with `remaining` retries left
after the current attempt: try `op attempt`; on success return; on failure,
when retries remain, wait `delay`, double it and recurse, else rethrow the
last failure. Returns (outcome, number of invocations, list of waits in ms).
The trailing `throw new Error('Max retries exceeded')` in the source is
unreachable (the loop always returns or rethrows) and has no counterpart. -/
def backoffGo (op : Nat → Except ε α) (attempt : Nat) (delay : Nat) :
    Nat → Except ε α × Nat × List Nat
  | 0 =>
      match op attempt with
      | Except.ok v => (Except.ok v, 1, [])
      | Except.error e => (Except.error e, 1, [])
  | n + 1 =>
      match op attempt with
      | Except.ok v => (Except.ok v, 1, [])
      | Except.error _ =>
          let r := backoffGo op (attempt + 1) (delay * 2) n
          (r.1, r.2.1 + 1, delay :: r.2.2)

/-- `withExponentialBackoff(fn, maxRetries, initialDelayMs)`: attempts
`0 .. maxRetries`, doubling the wait between attempts. `op i` is the outcome
of the i-th invocation of `fn` (0-indexed). -/
def withExponentialBackoff (op : Nat → Except ε α) (maxRetries : Nat)
    (initialDelayMs : Nat) : Except ε α × Nat × List Nat :=
  backoffGo op 0 initialDelayMs maxRetries

/-! ### Association-list lemmas for the `Map` model -/

theorem mapGet_mapSet_self (m : List (String × β)) (k : String) (v : β) :
    mapGet (mapSet m k v) k = some v := by
  induction m with
  | nil => simp [mapGet, mapSet]
  | cons p rest ih =>
      obtain ⟨k', v'⟩ := p
      by_cases h : k' = k <;> simp [mapGet, mapSet, h, ih]

theorem mapGet_mapSet_ne (m : List (String × β)) (k k' : String) (v : β)
    (h : k' ≠ k) : mapGet (mapSet m k v) k' = mapGet m k' := by
  have hk : ¬ k = k' := fun hk => h hk.symm
  induction m with
  | nil => simp [mapGet, mapSet, hk]
  | cons p rest ih =>
      obtain ⟨a, b⟩ := p
      by_cases ha : a = k
      · subst ha
        simp [mapGet, mapSet, hk]
      · simp [mapGet, mapSet, ha, ih]

theorem mapGet_mapDelete_self (m : List (String × β)) (k : String) :
    mapGet (mapDelete m k) k = none := by
  induction m with
  | nil => simp [mapGet, mapDelete]
  | cons p rest ih =>
      obtain ⟨a, b⟩ := p
      by_cases ha : a = k <;> simp [mapGet, mapDelete, ha, ih]

theorem mapGet_mapDelete_ne (m : List (String × β)) (k k' : String)
    (h : k' ≠ k) : mapGet (mapDelete m k) k' = mapGet m k' := by
  induction m with
  | nil => simp [mapDelete]
  | cons p rest ih =>
      obtain ⟨a, b⟩ := p
      by_cases ha : a = k
      · subst ha
        have hk : ¬ a = k' := fun hk => h hk.symm
        simp [mapGet, mapDelete, hk, ih]
      · simp [mapGet, mapDelete, ha, ih]

theorem mem_keys_mapSet (m : List (String × β)) (k x : String) (v : β) :
    x ∈ (mapSet m k v).map Prod.fst ↔ x = k ∨ x ∈ m.map Prod.fst := by
  induction m with
  | nil => simp [mapSet]
  | cons p rest ih =>
      obtain ⟨a, b⟩ := p
      by_cases ha : a = k
      · subst ha
        simp [mapSet]
      · simp [mapSet, ha, ih]
        tauto

theorem mapDelete_sublist (m : List (String × β)) (k : String) :
    List.Sublist (mapDelete m k) m := by
  induction m with
  | nil => simp [mapDelete]
  | cons p rest ih =>
      obtain ⟨a, b⟩ := p
      by_cases ha : a = k
      · rw [mapDelete, if_pos ha]
        exact ih.trans (List.sublist_cons_self (a, b) rest)
      · rw [mapDelete, if_neg ha]
        exact ih.cons₂ (a, b)

theorem nodup_keys_mapSet (m : List (String × β)) (k : String) (v : β)
    (h : (m.map Prod.fst).Nodup) : ((mapSet m k v).map Prod.fst).Nodup := by
  induction m with
  | nil => simp [mapSet]
  | cons p rest ih =>
      obtain ⟨a, b⟩ := p
      simp only [List.map_cons, List.nodup_cons] at h
      by_cases ha : a = k
      · subst ha
        rw [mapSet, if_pos rfl]
        simpa [List.nodup_cons] using h
      · rw [mapSet, if_neg ha, List.map_cons, List.nodup_cons]
        refine ⟨?_, ih h.2⟩
        intro hmem
        rcases (mem_keys_mapSet rest k a v).mp hmem with h1 | h1
        · exact ha h1
        · exact h.1 h1

theorem nodup_keys_mapDelete (m : List (String × β)) (k : String)
    (h : (m.map Prod.fst).Nodup) : ((mapDelete m k).map Prod.fst).Nodup :=
  ((mapDelete_sublist m k).map Prod.fst).nodup h

theorem mapDelete_of_not_mem (m : List (String × β)) (k : String)
    (h : k ∉ m.map Prod.fst) : mapDelete m k = m := by
  induction m with
  | nil => simp [mapDelete]
  | cons p rest ih =>
      obtain ⟨a, b⟩ := p
      simp only [List.map_cons, List.mem_cons] at h
      push_neg at h
      have hk : ¬ a = k := fun hk => h.1 hk.symm
      simp [mapDelete, hk, ih h.2]

theorem length_mapSet_of_none (m : List (String × β)) (k : String) (v : β)
    (h : mapGet m k = none) : (mapSet m k v).length = m.length + 1 := by
  induction m with
  | nil => simp [mapSet]
  | cons p rest ih =>
      obtain ⟨a, b⟩ := p
      by_cases ha : a = k
      · simp [mapGet, ha] at h
      · simp only [mapGet, ha, if_neg ha] at h
        simp [mapSet, ha, ih h]

theorem length_mapSet_of_some (m : List (String × β)) (k : String) (v e : β)
    (h : mapGet m k = some e) : (mapSet m k v).length = m.length := by
  induction m with
  | nil => simp [mapGet] at h
  | cons p rest ih =>
      obtain ⟨a, b⟩ := p
      by_cases ha : a = k
      · simp [mapSet, ha]
      · simp only [mapGet, ha, if_neg ha] at h
        simp [mapSet, ha, ih h]

theorem length_mapDelete_of_some (m : List (String × β)) (k : String) (e : β)
    (hnd : (m.map Prod.fst).Nodup) (h : mapGet m k = some e) :
    (mapDelete m k).length + 1 = m.length := by
  induction m with
  | nil => simp [mapGet] at h
  | cons p rest ih =>
      obtain ⟨a, b⟩ := p
      simp only [List.map_cons, List.nodup_cons] at hnd
      by_cases ha : a = k
      · subst ha
        rw [mapDelete, if_pos rfl, mapDelete_of_not_mem rest a hnd.1]
        simp
      · simp only [mapGet, ha, if_neg ha] at h
        simp [mapDelete, ha, ih hnd.2 h]

theorem mapGet_mem_keys (m : List (String × β)) (k : String) (e : β)
    (h : mapGet m k = some e) : k ∈ m.map Prod.fst := by
  induction m with
  | nil => simp [mapGet] at h
  | cons p rest ih =>
      obtain ⟨a, b⟩ := p
      by_cases ha : a = k
      · simp [ha]
      · simp only [mapGet, ha, if_neg ha] at h
        simp [ih h]

theorem mapGet_of_head (m : List (String × β)) (k : String) (e : β)
    (h : m.head? = some (k, e)) : mapGet m k = some e := by
  cases m with
  | nil => exact absurd h (by simp)
  | cons p rest =>
      have hp : p = (k, e) := by simpa using h
      subst hp
      simp [mapGet]

theorem mapGet_of_mem_keys (m : List (String × β)) (k : String)
    (h : k ∈ m.map Prod.fst) : ∃ e, mapGet m k = some e := by
  induction m with
  | nil => simp at h
  | cons p rest ih =>
      obtain ⟨a, b⟩ := p
      by_cases ha : a = k
      · exact ⟨b, by simp [mapGet, ha]⟩
      · simp only [List.map_cons, List.mem_cons] at h
        rcases h with h | h
        · exact absurd h.symm ha
        · obtain ⟨e, he⟩ := ih h
          exact ⟨e, by simp [mapGet, ha, he]⟩

/-! ### Helper lemmas about the cache operations -/

theorem isNull_false_iff (x : JsVal α) : x.isNull = false ↔ x ≠ JsVal.jsNull := by
  cases x <;> simp [JsVal.isNull]

theorem isNull_true_iff (x : JsVal α) : x.isNull = true ↔ x = JsVal.jsNull := by
  cases x <;> simp [JsVal.isNull]

/-- Whatever trimming `set` performed, the new entry is afterwards bound to `key`. -/
theorem mapGet_set_self (c : MemoryCache α) (k : String) (v : JsVal α)
    (ttl now : Int) :
    mapGet (c.set k v ttl now).entries k = some ⟨v, now, ttl⟩ := by
  dsimp only [MemoryCache.set]
  exact mapGet_mapSet_self _ _ _

theorem nodup_keys_set (c : MemoryCache α) (k : String) (v : JsVal α)
    (ttl now : Int) (h : (c.entries.map Prod.fst).Nodup) :
    ((c.set k v ttl now).entries.map Prod.fst).Nodup := by
  dsimp only [MemoryCache.set]
  apply nodup_keys_mapSet
  split
  · split
    · split
      · exact h
      · exact nodup_keys_mapDelete _ _ h
    · exact h
  · exact h

theorem set_maxSize (c : MemoryCache α) (k : String) (v : JsVal α)
    (ttl now : Int) : (c.set k v ttl now).maxSize = c.maxSize := rfl

/-- When the cache is at or over capacity with a non-empty oldest key, `set`
deletes that oldest key before binding the new entry. -/
theorem set_entries_at_capacity (c : MemoryCache α) (k₀ : String)
    (e₀ : CacheEntry α) (key : String) (v : JsVal α) (ttl now : Int)
    (hge : c.maxSize ≤ c.entries.length) (hhead : c.entries.head? = some (k₀, e₀))
    (h₀ : k₀ ≠ "") :
    (c.set key v ttl now).entries
      = mapSet (mapDelete c.entries k₀) key ⟨v, now, ttl⟩ := by
  dsimp only [MemoryCache.set]
  rw [if_pos hge, hhead]
  simp [h₀]

/-- When the cache is at or over capacity but the oldest key is the empty
string, the eviction guard (`if (oldestKey)`) skips the deletion entirely. -/
theorem set_entries_at_capacity_empty_oldest (c : MemoryCache α)
    (e₀ : CacheEntry α) (key : String) (v : JsVal α) (ttl now : Int)
    (hge : c.maxSize ≤ c.entries.length) (hhead : c.entries.head? = some ("", e₀)) :
    (c.set key v ttl now).entries = mapSet c.entries key ⟨v, now, ttl⟩ := by
  dsimp only [MemoryCache.set]
  rw [if_pos hge, hhead]
  simp

/-- Under capacity, `set` is a plain `Map.set`. -/
theorem set_entries_under_capacity (c : MemoryCache α) (key : String)
    (v : JsVal α) (ttl now : Int) (hlt : c.entries.length < c.maxSize) :
    (c.set key v ttl now).entries = mapSet c.entries key ⟨v, now, ttl⟩ := by
  dsimp only [MemoryCache.set]
  rw [if_neg (by omega)]

/-- The value returned by `get` only depends on the binding of the key. -/
theorem get_fst_congr (c₁ c₂ : MemoryCache α) (k : String) (t : Int)
    (h : mapGet c₁.entries k = mapGet c₂.entries k) :
    (c₁.get k t).1 = (c₂.get k t).1 := by
  unfold MemoryCache.get
  rw [h]
  cases mapGet c₂.entries k with
  | none => rfl
  | some e => by_cases he : e.ttl < t - e.timestamp <;> simp [he]

/-- An absent key makes `get` return `null` and leave the cache unchanged. -/
theorem get_of_mapGet_none (c : MemoryCache α) (k : String) (t : Int)
    (h : mapGet c.entries k = none) : c.get k t = (JsVal.jsNull, c) := by
  simp [MemoryCache.get, h]

/-- A fresh, unexpired binding makes `get` return its data and leave the cache
unchanged. -/
theorem get_of_mapGet_some_live (c : MemoryCache α) (k : String) (t : Int)
    (e : CacheEntry α) (hm : mapGet c.entries k = some e)
    (ht : ¬ e.ttl < t - e.timestamp) : c.get k t = (e.data, c) := by
  simp [MemoryCache.get, hm, ht]

/-- An expired binding makes `get` return `null` and delete the entry. -/
theorem get_of_mapGet_some_expired (c : MemoryCache α) (k : String) (t : Int)
    (e : CacheEntry α) (hm : mapGet c.entries k = some e)
    (ht : e.ttl < t - e.timestamp) :
    c.get k t = (JsVal.jsNull, ⟨mapDelete c.entries k, c.maxSize⟩) := by
  simp [MemoryCache.get, hm, ht]

/-- After a `get` that returned `null`, every later `get` of the same key on the
post-read cache still returns `null` (the binding is gone, or its data is the
stored `null`). -/
theorem get_fst_null_after (c : MemoryCache α) (k : String) (now : Int)
    (h : (c.get k now).1 = JsVal.jsNull) (t : Int) :
    (((c.get k now).2).get k t).1 = JsVal.jsNull := by
  cases hm : mapGet c.entries k with
  | none =>
      rw [get_of_mapGet_none c k now hm]
      rw [get_of_mapGet_none c k t hm]
  | some e =>
      by_cases he : e.ttl < now - e.timestamp
      · rw [get_of_mapGet_some_expired c k now e hm he]
        simp [MemoryCache.get, mapGet_mapDelete_self]
      · rw [get_of_mapGet_some_live c k now e hm he] at h ⊢
        have hdata : e.data = JsVal.jsNull := h
        by_cases ht : e.ttl < t - e.timestamp
        · rw [get_of_mapGet_some_expired c k t e hm ht]
        · rw [get_of_mapGet_some_live c k t e hm ht]
          exact hdata

/-- A `get` that returned a non-`null` value had a live binding and did not
touch the cache. -/
theorem get_hit (c : MemoryCache α) (k : String) (t : Int)
    (h : (c.get k t).1 ≠ JsVal.jsNull) :
    (c.get k t).2 = c := by
  cases hm : mapGet c.entries k with
  | none => rw [get_of_mapGet_none c k t hm]
  | some e =>
      by_cases he : e.ttl < t - e.timestamp
      · rw [get_of_mapGet_some_expired c k t e hm he] at h
        simp at h
      · rw [get_of_mapGet_some_live c k t e hm he]

/-! ### Helper lemmas about deduplication, backoff and throttling -/

/-- Calls issued while a promise is registered all join that promise and change
nothing. -/
theorem dedupIssueN_pending (n : Nat) (s : DedupState) (p : Nat)
    (h : s.pending = some p) : dedupIssueN n s = (s, List.replicate n p) := by
  induction n with
  | zero => simp [dedupIssueN]
  | succ n ih => simp [dedupIssueN, dedupIssue, h, ih, List.replicate_succ]

/-- Reindexing of the geometric delay schedule under a doubled base. -/
theorem geom_cons (delay k : Nat) :
    (List.range (k + 1)).map (fun i => delay * 2 ^ i)
      = delay :: (List.range k).map (fun i => delay * 2 * 2 ^ i) := by
  rw [List.range_succ_eq_map, List.map_cons, List.map_map]
  refine congrArg₂ _ (by simp) ?_
  apply List.map_congr_left
  intro i _
  simp [Function.comp, pow_succ]
  ring

/-- An operation failing on its first `k` attempts and succeeding on the next,
with at least `k` retries remaining, runs `k + 1` times, succeeds, and waits
the doubling schedule between attempts. -/
theorem backoffGo_succeeds (k : Nat) :
    ∀ (attempt delay remaining : Nat) (op : Nat → Except ε α) (v : α),
    k ≤ remaining →
    (∀ i, i < k → ∃ e, op (attempt + i) = Except.error e) →
    op (attempt + k) = Except.ok v →
    backoffGo op attempt delay remaining =
      (Except.ok v, k + 1, (List.range k).map fun i => delay * 2 ^ i) := by
  induction k with
  | zero =>
      intro attempt delay remaining op v _ _ hs
      rw [Nat.add_zero] at hs
      cases remaining <;> simp [backoffGo, hs]
  | succ k ih =>
      intro attempt delay remaining op v hle hf hs
      obtain ⟨e, he⟩ := hf 0 (Nat.succ_pos k)
      rw [Nat.add_zero] at he
      cases remaining with
      | zero => omega
      | succ n =>
          have hle' : k ≤ n := by omega
          have hf' : ∀ i, i < k → ∃ e, op (attempt + 1 + i) = Except.error e := by
            intro i hi
            obtain ⟨e', he'⟩ := hf (i + 1) (by omega)
            exact ⟨e', by rwa [show attempt + (i + 1) = attempt + 1 + i by omega] at he'⟩
          have hs' : op (attempt + 1 + k) = Except.ok v := by
            rwa [show attempt + (k + 1) = attempt + 1 + k by omega] at hs
          simp only [backoffGo, he]
          rw [ih (attempt + 1) (delay * 2) n op v hle' hf' hs', geom_cons]

/-- An operation that fails on every attempt exhausts all retries: it runs
`remaining + 1` times and the propagated failure is the final attempt's. -/
theorem backoffGo_all_fail (remaining : Nat) :
    ∀ (attempt delay : Nat) (op : Nat → Except ε α) (errf : Nat → ε),
    (∀ i, op i = Except.error (errf i)) →
    backoffGo op attempt delay remaining =
      (Except.error (errf (attempt + remaining)), remaining + 1,
        (List.range remaining).map fun i => delay * 2 ^ i) := by
  induction remaining with
  | zero =>
      intro attempt delay op errf h
      simp [backoffGo, h attempt]
  | succ n ih =>
      intro attempt delay op errf h
      simp only [backoffGo, h attempt]
      rw [ih (attempt + 1) (delay * 2) op errf h, geom_cons]
      simp [show attempt + 1 + n = attempt + (n + 1) by omega]

/-! ### Concrete caches at the default capacity -/

/-- Key family whose first key is the empty string: `""`, `"k1"`, …, `"k99"`. -/
def ckey : Nat → String
  | 0 => ""
  | Nat.succ n => "k" ++ Nat.repr (Nat.succ n)

/-- Key family `"k0"`, `"k1"`, …: every key non-empty. -/
def nkey (n : Nat) : String := "k" ++ Nat.repr n

/-- A cache filled to the default capacity (100 distinct keys) whose
earliest-inserted key is the empty string. -/
def demoEmptyOldest : MemoryCache Nat :=
  (List.range 100).foldl
    (fun c i => c.set (ckey i) (JsVal.val i) 300000 0) MemoryCache.new

/-- A cache filled to the default capacity with keys `"k0"` … `"k99"`,
inserted in that order, each holding `val i` with ttl 300000 at time 0. -/
def demoFull : MemoryCache Nat :=
  (List.range 100).foldl
    (fun c i => c.set (nkey i) (JsVal.val i) 300000 0) MemoryCache.new

set_option maxRecDepth 40000 in
/-- Evaluated facts about `demoFull`: distinct keys, exactly at the default
capacity, oldest binding is `"k0"`, `"x"` is fresh, `"k50"` is bound. -/
theorem demoFull_facts :
    (demoFull.entries.map Prod.fst).Nodup
    ∧ demoFull.entries.length = 100
    ∧ demoFull.maxSize = 100
    ∧ demoFull.entries.head? = some ("k0", ⟨JsVal.val 0, 0, 300000⟩)
    ∧ mapGet demoFull.entries "x" = none
    ∧ mapGet demoFull.entries "k50" = some ⟨JsVal.val 50, 0, 300000⟩ := by
  decide

/-! ### The claims -/

/-- Claim C1, amended: for a cache at the default maximum of 100 whose
earliest-inserted key is not the empty string, inserting a 101st distinct key
via `set` evicts exactly one prior entry — the earliest inserted (insertion
order) — which becomes unreachable via `get`, while every other entry keeps
its binding and its `get` result; the new key is bound with the given data,
timestamp and ttl, and the population stays at 100. (The unamended claim
fails when the earliest key is `""`, which the eviction guard treats as
falsy.) -/
theorem capacity_eviction (c : MemoryCache α) (k₀ : String) (e₀ : CacheEntry α)
    (newKey : String) (v : JsVal α) (ttl now : Int)
    (hnd : (c.entries.map Prod.fst).Nodup)
    (hmax : c.maxSize = 100) (hlen : c.entries.length = 100)
    (hhead : c.entries.head? = some (k₀, e₀)) (h₀ : k₀ ≠ "")
    (hfresh : mapGet c.entries newKey = none) :
    (c.set newKey v ttl now).size = 100
    ∧ mapGet (c.set newKey v ttl now).entries k₀ = none
    ∧ (∀ t, ((c.set newKey v ttl now).get k₀ t).1 = JsVal.jsNull)
    ∧ mapGet (c.set newKey v ttl now).entries newKey = some ⟨v, now, ttl⟩
    ∧ (∀ k', k' ≠ k₀ → k' ≠ newKey →
         mapGet (c.set newKey v ttl now).entries k' = mapGet c.entries k'
         ∧ ∀ t, ((c.set newKey v ttl now).get k' t).1 = (c.get k' t).1) := by
  have hk₀ : mapGet c.entries k₀ = some e₀ := mapGet_of_head _ _ _ hhead
  have hne : newKey ≠ k₀ := by
    intro h
    rw [h, hk₀] at hfresh
    exact Option.noConfusion hfresh
  have hge : c.maxSize ≤ c.entries.length := by omega
  have hset := set_entries_at_capacity c k₀ e₀ newKey v ttl now hge hhead h₀
  have hdelfresh : mapGet (mapDelete c.entries k₀) newKey = none := by
    rw [mapGet_mapDelete_ne _ _ _ hne, hfresh]
  have hsize : (c.set newKey v ttl now).size = 100 := by
    have h1 := length_mapSet_of_none (mapDelete c.entries k₀) newKey
      ⟨v, now, ttl⟩ hdelfresh
    have h2 := length_mapDelete_of_some c.entries k₀ e₀ hnd hk₀
    dsimp only [MemoryCache.size]
    rw [hset, h1]
    omega
  have hgone : mapGet (c.set newKey v ttl now).entries k₀ = none := by
    rw [hset, mapGet_mapSet_ne _ _ _ _ (Ne.symm hne)]
    exact mapGet_mapDelete_self _ _
  refine ⟨hsize, hgone, ?_, ?_, ?_⟩
  · intro t
    rw [get_of_mapGet_none _ _ _ hgone]
  · rw [hset]
    exact mapGet_mapSet_self _ _ _
  · intro k' hk'0 hk'new
    have heq : mapGet (c.set newKey v ttl now).entries k' = mapGet c.entries k' := by
      rw [hset, mapGet_mapSet_ne _ _ _ _ hk'new, mapGet_mapDelete_ne _ _ _ hk'0]
    exact ⟨heq, fun t => get_fst_congr _ _ _ _ heq⟩

/-- Witness for C1 at a concrete cache: `demoFull` plus the fresh key `"x"`. -/
theorem capacity_eviction_witness :
    (demoFull.set "x" (JsVal.val 100) 300000 1).size = 100
    ∧ mapGet (demoFull.set "x" (JsVal.val 100) 300000 1).entries "k0" = none
    ∧ ((demoFull.set "x" (JsVal.val 100) 300000 1).get "k0" 1).1 = JsVal.jsNull
    ∧ mapGet (demoFull.set "x" (JsVal.val 100) 300000 1).entries "x"
        = some ⟨JsVal.val 100, 1, 300000⟩
    ∧ ((demoFull.set "x" (JsVal.val 100) 300000 1).get "k50" 1).1
        = (demoFull.get "k50" 1).1 := by
  have h := capacity_eviction demoFull "k0" ⟨JsVal.val 0, 0, 300000⟩ "x"
    (JsVal.val 100) 300000 1 demoFull_facts.1 demoFull_facts.2.2.1
    demoFull_facts.2.1 demoFull_facts.2.2.2.1 (by decide)
    demoFull_facts.2.2.2.2.1
  exact ⟨h.1, h.2.1, h.2.2.1 1, h.2.2.2.1, (h.2.2.2.2 "k50" (by decide) (by decide)).2 1⟩

set_option maxRecDepth 40000 in
/-- Counterexample to C1 as stated: a cache holding 100 distinct keys whose
earliest-inserted key is `""`. Inserting the 101st distinct key `"x"` evicts
nothing — the population grows to 101 and even the earliest entry is still
reachable via `get` — because `if (oldestKey)` is false for the empty-string
key. -/
theorem capacity_eviction_empty_key_cex :
    (demoEmptyOldest.entries.map Prod.fst).Nodup
    ∧ demoEmptyOldest.size = 100
    ∧ demoEmptyOldest.maxSize = 100
    ∧ mapGet demoEmptyOldest.entries "x" = none
    ∧ demoEmptyOldest.entries.head? = some ("", ⟨JsVal.val 0, 0, 300000⟩)
    ∧ (demoEmptyOldest.set "x" (JsVal.val 100) 300000 0).size = 101
    ∧ ((demoEmptyOldest.set "x" (JsVal.val 100) 300000 0).get "" 0).1 = JsVal.val 0
    ∧ ((demoEmptyOldest.set "x" (JsVal.val 100) 300000 0).get "x" 0).1
        = JsVal.val 100 := by
  decide

/-- Claim C2: lazy expiry. After `set(k, v, ttl)` at time `t₀`, a `get` at
`now` returns `v` and leaves the cache untouched while `now - t₀ ≤ ttl`; once
`now - t₀ > ttl` the `get` returns `null` and deletes the entry as a side
effect of the read. Before such a read `size()` still counts the expired
entry; after it, the population is one smaller and the key is gone; `has`
behaves as that read and reports `false`. -/
theorem lazy_expiry (c : MemoryCache α) (k : String) (v : JsVal α)
    (ttl t₀ now : Int) (hnd : (c.entries.map Prod.fst).Nodup) :
    (¬ ttl < now - t₀ → (c.set k v ttl t₀).get k now = (v, c.set k v ttl t₀))
    ∧ (ttl < now - t₀ →
        ((c.set k v ttl t₀).get k now).1 = JsVal.jsNull
        ∧ k ∈ (c.set k v ttl t₀).entries.map Prod.fst
        ∧ ((c.set k v ttl t₀).get k now).2.size + 1 = (c.set k v ttl t₀).size
        ∧ k ∉ ((c.set k v ttl t₀).get k now).2.entries.map Prod.fst
        ∧ (c.set k v ttl t₀).has k now = (false, ((c.set k v ttl t₀).get k now).2)) := by
  have hm := mapGet_set_self c k v ttl t₀
  constructor
  · intro hlive
    exact get_of_mapGet_some_live _ _ _ _ hm hlive
  · intro hexp
    have hg := get_of_mapGet_some_expired (c.set k v ttl t₀) k now
      ⟨v, t₀, ttl⟩ hm hexp
    have hnd' := nodup_keys_set c k v ttl t₀ hnd
    refine ⟨by rw [hg], mapGet_mem_keys _ _ _ hm, ?_, ?_, ?_⟩
    · rw [hg]
      dsimp only [MemoryCache.size]
      exact length_mapDelete_of_some _ _ _ hnd' hm
    · rw [hg]
      intro hmem
      obtain ⟨e, he⟩ := mapGet_of_mem_keys _ _ hmem
      rw [mapGet_mapDelete_self] at he
      exact Option.noConfusion he
    · dsimp only [MemoryCache.has]
      rw [hg]
      rfl

/-- Witness for C2: a single entry with ttl 5 stored at time 0, read live at
time 3 and expired at time 10. -/
theorem lazy_expiry_witness :
    ((MemoryCache.new.set "a" (JsVal.val 7) 5 0).get "a" 3)
      = (JsVal.val 7, MemoryCache.new.set "a" (JsVal.val 7) 5 0)
    ∧ (((MemoryCache.new.set "a" (JsVal.val 7) 5 0).get "a" 10).1 = JsVal.jsNull)
    ∧ ((MemoryCache.new.set "a" (JsVal.val 7) 5 0).get "a" 10).2.size + 1
        = (MemoryCache.new.set "a" (JsVal.val 7) 5 0).size := by
  have h3 := lazy_expiry (MemoryCache.new : MemoryCache Nat) "a" (JsVal.val 7)
    5 0 3 (by decide)
  have h10 := lazy_expiry (MemoryCache.new : MemoryCache Nat) "a" (JsVal.val 7)
    5 0 10 (by decide)
  exact ⟨h3.1 (by decide), (h10.2 (by decide)).1, (h10.2 (by decide)).2.2.1⟩

/-- Claim C3: coalescing. When `n + 1` `deduplicatedFetch` calls for the same
key are issued while the request is outstanding, the operation is invoked
exactly once, every caller holds the identity of the one registered promise
(hence receives the identical outcome), and completion removes the
pending-registry entry before the outcome — success or failure, unchanged —
is delivered, leaving no entry once nothing is outstanding. -/
theorem dedup_coalescing (ε α : Type) (n : Nat) (outcome : Except ε α) :
    (dedupIssueN (n + 1) dedupInit).1.invocations = 1
    ∧ (dedupIssueN (n + 1) dedupInit).2 = List.replicate (n + 1) 0
    ∧ (dedupComplete (dedupIssueN (n + 1) dedupInit).1 outcome).1.pending = none
    ∧ (dedupComplete (dedupIssueN (n + 1) dedupInit).1 outcome).2 = outcome := by
  have h1 : dedupIssue dedupInit = (⟨some 0, 1, 1⟩, 0) := rfl
  have h2 := dedupIssueN_pending n ⟨some 0, 1, 1⟩ 0 rfl
  constructor
  · simp [dedupIssueN, h1, h2]
  constructor
  · simp [dedupIssueN, h1, h2, List.replicate_succ]
  constructor
  · simp [dedupComplete]
  · simp [dedupComplete]

/-- Claim C4: cache-aside. `cachedFetch` returns the cached value with zero
operation invocations and an untouched cache when `get` hits; on a miss it
invokes the operation exactly once and, on success, stores the result under
the key with the given ttl and returns it. -/
theorem cache_aside (c : MemoryCache α) (k : String) (op : Except ε (JsVal α))
    (ttl now : Int) :
    ((c.get k now).1 ≠ JsVal.jsNull →
       cachedFetch c k op ttl now = (Except.ok (c.get k now).1, c, 0))
    ∧ ((c.get k now).1 = JsVal.jsNull → ∀ r, op = Except.ok r →
         cachedFetch c k op ttl now
           = (Except.ok r, ((c.get k now).2).set k r ttl now, 1)
         ∧ mapGet (cachedFetch c k op ttl now).2.1.entries k = some ⟨r, now, ttl⟩) := by
  constructor
  · intro h
    have hb : ((c.get k now).1).isNull = false := (isNull_false_iff _).mpr h
    have hst := get_hit c k now h
    simp [cachedFetch, hb, hst]
  · intro h r hop
    subst hop
    have hb : ((c.get k now).1).isNull = true := (isNull_true_iff _).mpr h
    have hfetch : cachedFetch c k (Except.ok r : Except ε (JsVal α)) ttl now
        = (Except.ok r, ((c.get k now).2).set k r ttl now, 1) := by
      simp [cachedFetch, hb]
    refine ⟨hfetch, ?_⟩
    rw [hfetch]
    exact mapGet_set_self _ _ _ _ _

/-- Witness for C4: a hit on a live entry returns it without invoking the
operation; a miss on the empty cache invokes it once and stores the result. -/
theorem cache_aside_witness :
    cachedFetch (MemoryCache.new.set "a" (JsVal.val 3) 100 0) "a"
        (Except.ok (JsVal.val 9) : Except String (JsVal Nat)) 50 1
      = (Except.ok (JsVal.val 3), MemoryCache.new.set "a" (JsVal.val 3) 100 0, 0)
    ∧ cachedFetch (MemoryCache.new : MemoryCache Nat) "a"
        (Except.ok (JsVal.val 9) : Except String (JsVal Nat)) 50 1
      = (Except.ok (JsVal.val 9), MemoryCache.new.set "a" (JsVal.val 9) 50 1, 1) := by
  have hhit := (cache_aside (MemoryCache.new.set "a" (JsVal.val 3) 100 0) "a"
    (Except.ok (JsVal.val 9) : Except String (JsVal Nat)) 50 1).1 (by decide)
  have hmiss := ((cache_aside (MemoryCache.new : MemoryCache Nat) "a"
    (Except.ok (JsVal.val 9) : Except String (JsVal Nat)) 50 1).2 (by decide)
    (JsVal.val 9) rfl).1
  exact ⟨hhit, hmiss⟩

/-- Claim C5, amended: on a cache miss with a failing operation, `cachedFetch`
propagates the failure unchanged and stores nothing: the final cache is
exactly the post-read cache, which can differ from the initial cache only by
the lazy deletion of an expired entry under the requested key (every other
key's binding is untouched), and any subsequent `cachedFetch` for the key
misses again and invokes its operation in full. (The unamended parenthetical
"the cache state is unchanged by the failed call" fails when the miss was
caused by expiry: the read deletes the expired entry.) -/
theorem miss_then_fail (c : MemoryCache α) (k : String) (e : ε)
    (ttl now : Int) (hmiss : (c.get k now).1 = JsVal.jsNull) :
    cachedFetch c k (Except.error e) ttl now = (Except.error e, (c.get k now).2, 1)
    ∧ (∀ k', k' ≠ k → mapGet ((c.get k now).2).entries k' = mapGet c.entries k')
    ∧ (∀ (ε' : Type) (op' : Except ε' (JsVal α)) (ttl' now' : Int),
         (cachedFetch ((c.get k now).2) k op' ttl' now').2.2 = 1) := by
  have hb : ((c.get k now).1).isNull = true := (isNull_true_iff _).mpr hmiss
  refine ⟨by simp [cachedFetch, hb], ?_, ?_⟩
  · intro k' hk'
    cases hm : mapGet c.entries k with
    | none => rw [get_of_mapGet_none _ _ _ hm]
    | some en =>
        by_cases he : en.ttl < now - en.timestamp
        · rw [get_of_mapGet_some_expired _ _ _ _ hm he]
          exact mapGet_mapDelete_ne _ _ _ hk'
        · rw [get_of_mapGet_some_live _ _ _ _ hm he]
  · intro ε' op' ttl' now'
    have hnull := get_fst_null_after c k now hmiss now'
    have hb' : ((((c.get k now).2).get k now').1).isNull = true :=
      (isNull_true_iff _).mpr hnull
    cases op' <;> simp [cachedFetch, hb']

/-- Witness for C5: an expired entry (`ttl` 5, stored at 0, read at 10) plus a
failing operation; the failure propagates, the post-read cache is empty, and
the next fetch invokes its operation again. -/
theorem miss_then_fail_witness :
    cachedFetch (MemoryCache.new.set "a" (JsVal.val 3) 5 0) "a"
        (Except.error "boom" : Except String (JsVal Nat)) 300000 10
      = (Except.error "boom", (⟨[], 100⟩ : MemoryCache Nat), 1)
    ∧ (cachedFetch ((⟨[], 100⟩ : MemoryCache Nat)) "a"
        (Except.ok (JsVal.val 1) : Except String (JsVal Nat)) 50 20).2.2 = 1 := by
  have h := miss_then_fail (MemoryCache.new.set "a" (JsVal.val 3) 5 0) "a"
    ("boom" : String) 300000 10 (by decide)
  exact ⟨h.1, h.2.2 String (Except.ok (JsVal.val 1)) 50 20⟩

set_option maxRecDepth 4000 in
/-- Counterexample to C5 as stated: the same failed fetch changes the cache
state — the entry under `"a"` was expired, and the read deleted it. -/
theorem miss_then_fail_state_cex :
    (cachedFetch (MemoryCache.new.set "a" (JsVal.val 3) 5 0) "a"
        (Except.error "boom" : Except String (JsVal Nat)) 300000 10).1
      = Except.error "boom"
    ∧ (cachedFetch (MemoryCache.new.set "a" (JsVal.val 3) 5 0) "a"
        (Except.error "boom" : Except String (JsVal Nat)) 300000 10).2.1
      ≠ MemoryCache.new.set "a" (JsVal.val 3) 5 0 := by
  decide

/-- Claim C6: backoff schedule. An operation failing exactly `k < 3` times and
then succeeding, wrapped with `maxRetries = 3` and `initialDelayMs = 1000`,
returns the successful result, is invoked exactly `k + 1` times, and the wait
before the `i`-th retry (1-indexed) is `1000 * 2 ^ (i - 1)` ms — i.e. the
waits are `[1000 * 2 ^ 0, …, 1000 * 2 ^ (k - 1)]`. -/
theorem backoff_schedule (op : Nat → Except ε α) (k : Nat) (v : α)
    (hk : k < 3)
    (hf : ∀ i, i < k → ∃ e, op i = Except.error e)
    (hs : op k = Except.ok v) :
    withExponentialBackoff op 3 1000
      = (Except.ok v, k + 1, (List.range k).map fun i => 1000 * 2 ^ i) := by
  unfold withExponentialBackoff
  exact backoffGo_succeeds k 0 1000 3 op v (by omega)
    (by intro i hi; simpa using hf i hi) (by simpa using hs)

/-- Witness for C6: an operation failing twice then returning 7 is invoked
3 times with waits 1000 ms and 2000 ms. -/
theorem backoff_schedule_witness :
    withExponentialBackoff
        (fun i => if i < 2 then Except.error 0 else Except.ok 7) 3 1000
      = (Except.ok 7, 3, [1000, 2000]) := by
  have h := backoff_schedule
    (fun i => if i < 2 then (Except.error 0 : Except Nat Nat) else Except.ok 7)
    2 7 (by omega) (fun i hi => ⟨0, by simp [hi]⟩) (by simp)
  rw [h]
  decide

/-- Claim C7: exhaustion. An operation failing on every invocation, wrapped
with `maxRetries = 3`, is invoked exactly 4 times; the propagated failure is
exactly the 4th invocation's failure, unchanged, the intermediate failures
being swallowed. -/
theorem backoff_exhaustion (op : Nat → Except ε α) (errf : Nat → ε)
    (h : ∀ i, op i = Except.error (errf i)) :
    withExponentialBackoff op 3 1000
      = (Except.error (errf 3), 4, [1000, 2000, 4000]) := by
  unfold withExponentialBackoff
  rw [backoffGo_all_fail 3 0 1000 op errf h]
  have hl : (List.range 3).map (fun i => 1000 * 2 ^ i) = [1000, 2000, 4000] := by
    decide
  simp [hl]

/-- Witness for C7: the operation failing with `error i` on attempt `i`
propagates `error 3` after 4 invocations. -/
theorem backoff_exhaustion_witness :
    withExponentialBackoff (fun i => (Except.error i : Except Nat Nat)) 3 1000
      = (Except.error 3, 4, [1000, 2000, 4000]) :=
  backoff_exhaustion (fun i => Except.error i) (fun i => i) (fun _ => rfl)

/-- Claim C8: throttle. An invocation at time `now` executes `fn` iff at least
`delayMs` has elapsed since the recorded last executed call (`lastCall`,
initialised to 0 at wrapper creation); otherwise it executes nothing and
returns the previous executed invocation's result. Consequently 5 calls whose
first is at `t₀ ≥ delayMs` (so that it executes) and whose rest fall within a
window shorter than `delayMs` execute `fn` exactly once — on the first call,
whose result the other four receive — and a further call once `delayMs` has
elapsed since `t₀` executes `fn` again. -/
theorem throttle_law (fn : α → β) (d : Int) :
    (∀ (s : ThrottleState β) (now : Int) (a : α),
       ((throttleCall fn d s now a).2.2 = 1 ↔ d ≤ now - s.lastCall)
       ∧ (d ≤ now - s.lastCall →
            throttleCall fn d s now a = (⟨now, some (fn a)⟩, some (fn a), 1))
       ∧ (¬ d ≤ now - s.lastCall →
            throttleCall fn d s now a = (s, s.lastResult, 0)))
    ∧ (∀ (t₀ t₁ t₂ t₃ t₄ t₅ : Int) (a₀ a₁ a₂ a₃ a₄ a₅ : α),
         d ≤ t₀ →
         t₁ - t₀ < d → t₂ - t₀ < d → t₃ - t₀ < d → t₄ - t₀ < d →
         d ≤ t₅ - t₀ →
         throttleRun fn d throttleInit
             [(t₀, a₀), (t₁, a₁), (t₂, a₂), (t₃, a₃), (t₄, a₄)]
           = (⟨t₀, some (fn a₀)⟩,
              [some (fn a₀), some (fn a₀), some (fn a₀), some (fn a₀), some (fn a₀)], 1)
         ∧ throttleRun fn d throttleInit
             [(t₀, a₀), (t₁, a₁), (t₂, a₂), (t₃, a₃), (t₄, a₄), (t₅, a₅)]
           = (⟨t₅, some (fn a₅)⟩,
              [some (fn a₀), some (fn a₀), some (fn a₀), some (fn a₀), some (fn a₀),
               some (fn a₅)], 2)) := by
  constructor
  · intro s now a
    by_cases h : d ≤ now - s.lastCall <;> simp [throttleCall, h]
  · intro t₀ t₁ t₂ t₃ t₄ t₅ a₀ a₁ a₂ a₃ a₄ a₅ h0 h1 h2 h3 h4 h5
    have h0' : d ≤ t₀ - (throttleInit : ThrottleState β).lastCall := by
      dsimp only [throttleInit]
      omega
    constructor <;>
      simp [throttleRun, throttleCall, h0', not_le.mpr h1, not_le.mpr h2,
        not_le.mpr h3, not_le.mpr h4, h5]

/-- Witness for C8: delay 100, first call at 1000, four more within 40 ms
executing nothing, a sixth at 1100 executing again. -/
theorem throttle_law_witness :
    throttleRun (fun n => n + 1) 100 throttleInit
        [(1000, 0), (1010, 1), (1020, 2), (1030, 3), (1040, 4)]
      = (⟨1000, some 1⟩, [some 1, some 1, some 1, some 1, some 1], 1)
    ∧ throttleRun (fun n => n + 1) 100 throttleInit
        [(1000, 0), (1010, 1), (1020, 2), (1030, 3), (1040, 4), (1100, 5)]
      = (⟨1100, some 6⟩, [some 1, some 1, some 1, some 1, some 1, some 6], 2) := by
  have h := (throttle_law (fun n : Nat => n + 1) 100).2
    1000 1010 1020 1030 1040 1100 0 1 2 3 4 5
    (by decide) (by decide) (by decide) (by decide) (by decide) (by decide)
  exact ⟨h.1, h.2⟩

/-- Claim C9: null-value conflation. Immediately after `set(k, null, ttl)`
with `ttl ≥ 0`, the entry is present and unexpired, yet `has(k)` reports
`false` (leaving the cache untouched) and `cachedFetch` treats the lookup as
a miss and invokes its operation once: `get` uses `null` as its absence
sentinel, so a stored `null` is indistinguishable from a missing entry. -/
theorem null_conflation (c : MemoryCache α) (k : String) (ttl now : Int)
    (ε' : Type) (op : Except ε' (JsVal α)) (ttl' : Int)
    (httl : 0 ≤ ttl) :
    mapGet (c.set k JsVal.jsNull ttl now).entries k
      = some ⟨JsVal.jsNull, now, ttl⟩
    ∧ (c.set k JsVal.jsNull ttl now).has k now
        = (false, c.set k JsVal.jsNull ttl now)
    ∧ (cachedFetch (c.set k JsVal.jsNull ttl now) k op ttl' now).2.2 = 1 := by
  have hm := mapGet_set_self c k JsVal.jsNull ttl now
  have hlive : ¬ (⟨JsVal.jsNull, now, ttl⟩ : CacheEntry α).ttl
      < now - (⟨JsVal.jsNull, now, ttl⟩ : CacheEntry α).timestamp := by
    dsimp only
    omega
  have hg := get_of_mapGet_some_live (c.set k JsVal.jsNull ttl now) k now
    ⟨JsVal.jsNull, now, ttl⟩ hm hlive
  refine ⟨hm, ?_, ?_⟩
  · dsimp only [MemoryCache.has]
    rw [hg]
    rfl
  · have hb : (((c.set k JsVal.jsNull ttl now).get k now).1).isNull = true := by
      rw [hg]
      rfl
    cases op <;> simp [cachedFetch, hb]

/-- Witness for C9: storing the JS `null` under `"a"` with ttl 60 at time 5
makes `has` report false at once and a `cachedFetch` re-invoke its
operation. -/
theorem null_conflation_witness :
    mapGet (MemoryCache.new.set "a" (JsVal.jsNull : JsVal Nat) 60 5).entries "a"
      = some ⟨JsVal.jsNull, 5, 60⟩
    ∧ (MemoryCache.new.set "a" (JsVal.jsNull : JsVal Nat) 60 5).has "a" 5
        = (false, MemoryCache.new.set "a" (JsVal.jsNull : JsVal Nat) 60 5)
    ∧ (cachedFetch (MemoryCache.new.set "a" (JsVal.jsNull : JsVal Nat) 60 5) "a"
        (Except.ok (JsVal.val 2) : Except String (JsVal Nat)) 60 5).2.2 = 1 := by
  have h := null_conflation (MemoryCache.new : MemoryCache Nat) "a" 60 5
    String (Except.ok (JsVal.val 2)) 60 (by decide)
  exact h

/-- Claim C10, amended: under the default capacity bound of 100, (a) when the
cache holds fewer than 100 entries, `set(k, v, ttl)` binds `k` and leaves
every other key's binding unchanged; (b) when it holds exactly 100 entries
with a non-empty oldest key, `set` first deletes the oldest-inserted entry
even if `k` is already present, so overwriting an existing key *other than
the oldest* evicts that unrelated entry and leaves 99 entries — below the
bound; but (c) overwriting the oldest key itself deletes and re-appends that
very key, leaving the population at 100, not below. (The unamended claim
asserts outcome (b) for every existing key, which fails when `k` is the
oldest key.) -/
theorem overwrite_frame (c : MemoryCache α) (k : String) (v : JsVal α)
    (ttl now : Int)
    (hnd : (c.entries.map Prod.fst).Nodup) (hmax : c.maxSize = 100) :
    (c.entries.length < 100 →
       mapGet (c.set k v ttl now).entries k = some ⟨v, now, ttl⟩
       ∧ ∀ k', k' ≠ k → mapGet (c.set k v ttl now).entries k' = mapGet c.entries k')
    ∧ (∀ (k₀ : String) (e₀ e : CacheEntry α),
         c.entries.length = 100 → c.entries.head? = some (k₀, e₀) → k₀ ≠ "" →
         mapGet c.entries k = some e → k ≠ k₀ →
         (c.set k v ttl now).size = 99
         ∧ mapGet (c.set k v ttl now).entries k₀ = none
         ∧ mapGet (c.set k v ttl now).entries k = some ⟨v, now, ttl⟩
         ∧ ∀ k', k' ≠ k → k' ≠ k₀ →
             mapGet (c.set k v ttl now).entries k' = mapGet c.entries k')
    ∧ (∀ (e : CacheEntry α),
         c.entries.length = 100 → c.entries.head? = some (k, e) → k ≠ "" →
         (c.set k v ttl now).size = 100) := by
  refine ⟨?_, ?_, ?_⟩
  · intro hlt
    have hset := set_entries_under_capacity c k v ttl now (by omega)
    refine ⟨?_, ?_⟩
    · rw [hset]
      exact mapGet_mapSet_self _ _ _
    · intro k' hk'
      rw [hset]
      exact mapGet_mapSet_ne _ _ _ _ hk'
  · intro k₀ e₀ e hlen hhead h₀ hk hne
    have hk₀ : mapGet c.entries k₀ = some e₀ := mapGet_of_head _ _ _ hhead
    have hset := set_entries_at_capacity c k₀ e₀ k v ttl now (by omega) hhead h₀
    have hdel : mapGet (mapDelete c.entries k₀) k = some e := by
      rw [mapGet_mapDelete_ne _ _ _ hne]
      exact hk
    refine ⟨?_, ?_, ?_, ?_⟩
    · dsimp only [MemoryCache.size]
      rw [hset, length_mapSet_of_some _ _ _ e hdel]
      have h2 := length_mapDelete_of_some c.entries k₀ e₀ hnd hk₀
      omega
    · rw [hset, mapGet_mapSet_ne _ _ _ _ (Ne.symm hne)]
      exact mapGet_mapDelete_self _ _
    · rw [hset]
      exact mapGet_mapSet_self _ _ _
    · intro k' hk' hk'0
      rw [hset, mapGet_mapSet_ne _ _ _ _ hk', mapGet_mapDelete_ne _ _ _ hk'0]
  · intro e hlen hhead h₀
    have hk : mapGet c.entries k = some e := mapGet_of_head _ _ _ hhead
    have hset := set_entries_at_capacity c k e k v ttl now (by omega) hhead h₀
    have hdel : mapGet (mapDelete c.entries k) k = none := mapGet_mapDelete_self _ _
    dsimp only [MemoryCache.size]
    rw [hset, length_mapSet_of_none _ _ _ hdel]
    have h2 := length_mapDelete_of_some c.entries k e hnd hk
    omega

/-- Witness for C10 at `demoFull`: overwriting `"k50"` at capacity evicts
`"k0"` and leaves 99 entries; overwriting `"k0"` — the oldest — leaves 100. -/
theorem overwrite_frame_witness :
    (demoFull.set "k50" (JsVal.val 7) 300000 1).size = 99
    ∧ mapGet (demoFull.set "k50" (JsVal.val 7) 300000 1).entries "k0" = none
    ∧ (demoFull.set "k0" (JsVal.val 7) 300000 1).size = 100 := by
  have hb := (overwrite_frame demoFull "k50" (JsVal.val 7) 300000 1
      demoFull_facts.1 demoFull_facts.2.2.1).2.1
    "k0" ⟨JsVal.val 0, 0, 300000⟩ ⟨JsVal.val 50, 0, 300000⟩
    demoFull_facts.2.1 demoFull_facts.2.2.2.1 (by decide)
    demoFull_facts.2.2.2.2.2 (by decide)
  have hc := (overwrite_frame demoFull "k0" (JsVal.val 7) 300000 1
      demoFull_facts.1 demoFull_facts.2.2.1).2.2
    ⟨JsVal.val 0, 0, 300000⟩ demoFull_facts.2.1 demoFull_facts.2.2.2.1 (by decide)
  exact ⟨hb.1, hb.2.1, hc⟩

set_option maxRecDepth 40000 in
/-- Counterexample to C10 as stated: at capacity, overwriting the existing key
`"k0"` — which is the oldest-inserted — leaves the population at 100, not
below the capacity bound, and evicts no unrelated entry (`"k50"` is a
representative untouched key). -/
theorem overwrite_at_capacity_cex :
    demoFull.size = 100
    ∧ mapGet demoFull.entries "k0" = some ⟨JsVal.val 0, 0, 300000⟩
    ∧ (demoFull.set "k0" (JsVal.val 7) 300000 1).size = 100
    ∧ ¬ (demoFull.set "k0" (JsVal.val 7) 300000 1).size < 100
    ∧ mapGet (demoFull.set "k0" (JsVal.val 7) 300000 1).entries "k50"
        = some ⟨JsVal.val 50, 0, 300000⟩ := by
  decide

end FlashFrame
